import Mathlib

/-!
Verification of the dupfind duplicate-file pipeline.

The Rust source is embedded shallowly:
- a file on disk is a `FileEntry`: its path, its byte content, and Boolean
  flags recording whether each I/O operation on it (metadata read, quick
  hash read, full hash read) succeeds during this run;
- Rust `HashMap<K, Vec<V>>` built by `entry(k).or_default().push(v)` is an
  association list `List (K × List V)` built by `insertAssoc` in insertion
  order (the iteration order of a Rust HashMap is unspecified; theorems
  about order independence are stated explicitly where a claim needs them);
- the global `INTERRUPTED` atomic flag is a function `Nat → Bool` giving
  the value observed at the n-th check point of a stage (the flag is
  written asynchronously by the signal handler, so each observation is an
  independent read);
- the blake3 digest primitive is an abstract parameter
  `hashFn : List Nat → δ` over the byte stream fed to it;
- Rust `anyhow::Result` is `Except String`.
-/

/-- A candidate file as seen by one pipeline run: its path, the walkdir
entry facts used by `scan_files`, its byte content, and whether each
fallible I/O operation on it succeeds during the run. -/
structure FileEntry where
  path : String
  isFile : Bool
  isSymlink : Bool
  content : List Nat
  metaOk : Bool
  quickOk : Bool
  fullOk : Bool
  deriving Repr, DecidableEq

/-- The root directory argument of `scan_files`: its final path component
(`Path::file_name`, absent for paths like "/" or "."), and whether the OS
reports a hidden attribute for it (`has_hidden_flag`). -/
structure RootDir where
  fileName : Option (List Char)
  hiddenFlag : Bool
  deriving Repr, DecidableEq

/-- `map.entry(k).or_default().push(v)` on an insertion-ordered map:
append `v` to the existing entry for `k`, or append a new entry at the
end. -/
def insertAssoc {α β : Type} [DecidableEq α] (m : List (α × List β)) (k : α) (v : β) :
    List (α × List β) :=
  match m with
  | [] => [(k, [v])]
  | (k', vs) :: rest =>
    if k' = k then (k', vs ++ [v]) :: rest else (k', vs) :: insertAssoc rest k v

/-- Fold a list of (key, value) pairs into a map, one `insertAssoc` per
pair — the accumulation loop `for (k, v) in pairs { map.entry(k)... }`. -/
def buildMap {α β : Type} [DecidableEq α] (pairs : List (α × β)) : List (α × List β) :=
  pairs.foldl (fun m q => insertAssoc m q.1 q.2) []

/-- The list of values a map associates with `k` (empty when absent). -/
def lookupD {α β : Type} [DecidableEq α] (m : List (α × List β)) (k : α) : List β :=
  match m.find? (fun q => q.1 = k) with
  | some q => q.2
  | none => []

/-- All values of `pairs` carrying key `k`, in order. -/
def collectByKey {α β : Type} [DecidableEq α] (pairs : List (α × β)) (k : α) : List β :=
  (pairs.filter (fun q => q.1 = k)).map (fun q => q.2)

/-- `map.retain(|_, vs| vs.len() > 1)`: drop singleton groups. -/
def retainMultiple {α β : Type} (m : List (α × List β)) : List (α × List β) :=
  m.filter (fun q => 1 < q.2.length)

theorem lookupD_cons {α β : Type} [DecidableEq α]
    (k0 : α) (vs : List β) (rest : List (α × List β)) (k : α) :
    lookupD ((k0, vs) :: rest) k = if k0 = k then vs else lookupD rest k := by
  by_cases h : k0 = k <;> simp [lookupD, List.find?, h]

theorem lookupD_insertAssoc {α β : Type} [DecidableEq α]
    (m : List (α × List β)) (k : α) (v : β) (k' : α) :
    lookupD (insertAssoc m k v) k' =
      lookupD m k' ++ (if k' = k then [v] else []) := by
  induction m with
  | nil =>
    by_cases h : k' = k
    · simp [insertAssoc, lookupD_cons, h, lookupD]
    · have h2 : ¬ (k = k') := fun hh => h hh.symm
      simp [insertAssoc, lookupD_cons, h, h2, lookupD]
  | cons q rest ih =>
    obtain ⟨k0, vs⟩ := q
    by_cases h0 : k0 = k
    · subst h0
      by_cases h1 : k0 = k'
      · subst h1
        simp [insertAssoc, lookupD_cons]
      · have h2 : ¬ (k' = k0) := fun hh => h1 hh.symm
        simp [insertAssoc, lookupD_cons, h1, h2]
    · by_cases h1 : k0 = k'
      · subst h1
        have h2 : ¬ (k0 = k) := h0
        simp [insertAssoc, h2, lookupD_cons]
      · simp [insertAssoc, h0, lookupD_cons, h1, ih]

theorem lookupD_foldl_insert {α β : Type} [DecidableEq α]
    (pairs : List (α × β)) (m : List (α × List β)) (k : α) :
    lookupD (pairs.foldl (fun acc q => insertAssoc acc q.1 q.2) m) k =
      lookupD m k ++ collectByKey pairs k := by
  induction pairs generalizing m with
  | nil => simp [collectByKey]
  | cons q rest ih =>
    simp only [List.foldl_cons]
    rw [ih, lookupD_insertAssoc]
    by_cases h : k = q.1
    · simp [collectByKey, h, List.filter_cons, List.append_assoc]
    · have h2 : ¬ (q.1 = k) := fun hh => h hh.symm
      simp [collectByKey, List.filter_cons, h, h2]

/-- The map built from `pairs` associates with `k` exactly the values of
`pairs` keyed `k`, in order of appearance. -/
theorem lookupD_buildMap {α β : Type} [DecidableEq α]
    (pairs : List (α × β)) (k : α) :
    lookupD (buildMap pairs) k = collectByKey pairs k := by
  have h := lookupD_foldl_insert pairs [] k
  simpa [buildMap, lookupD] using h

theorem mem_collectByKey {α β : Type} [DecidableEq α]
    (pairs : List (α × β)) (k : α) (v : β) :
    v ∈ collectByKey pairs k ↔ (k, v) ∈ pairs := by
  simp only [collectByKey, List.mem_map, List.mem_filter, decide_eq_true_eq]
  constructor
  · rintro ⟨⟨k0, v0⟩, ⟨hmem, hk⟩, hv⟩
    simp only at hk hv
    subst hk; subst hv; exact hmem
  · intro h
    exact ⟨(k, v), ⟨h, rfl⟩, rfl⟩

theorem keys_insertAssoc {α β : Type} [DecidableEq α]
    (m : List (α × List β)) (k : α) (v : β) :
    (insertAssoc m k v).map (fun q => q.1) = m.map (fun q => q.1) ∨
    (insertAssoc m k v).map (fun q => q.1) = m.map (fun q => q.1) ++ [k] := by
  induction m with
  | nil => right; simp [insertAssoc]
  | cons q rest ih =>
    obtain ⟨k0, vs⟩ := q
    by_cases h : k0 = k
    · left; simp [insertAssoc, h]
    · rcases ih with ih | ih
      · left; simp [insertAssoc, h, ih]
      · right; simp [insertAssoc, h, ih]

theorem nodupKeys_insertAssoc {α β : Type} [DecidableEq α]
    (m : List (α × List β)) (k : α) (v : β)
    (h : (m.map (fun q => q.1)).Nodup) :
    ((insertAssoc m k v).map (fun q => q.1)).Nodup := by
  induction m with
  | nil => simp [insertAssoc]
  | cons q rest ih =>
    obtain ⟨k0, vs⟩ := q
    simp only [List.map_cons, List.nodup_cons] at h
    by_cases hk : k0 = k
    · simp only [insertAssoc, if_pos hk, List.map_cons, List.nodup_cons]
      exact h
    · simp only [insertAssoc, if_neg hk, List.map_cons, List.nodup_cons]
      refine ⟨?_, ih h.2⟩
      intro hmem
      rcases keys_insertAssoc rest k v with he | he
      · rw [he] at hmem; exact h.1 hmem
      · rw [he, List.mem_append] at hmem
        rcases hmem with hmem | hmem
        · exact h.1 hmem
        · simp only [List.mem_singleton] at hmem
          exact hk hmem

theorem nodupKeys_buildMap {α β : Type} [DecidableEq α]
    (pairs : List (α × β)) :
    ((buildMap pairs).map (fun q => q.1)).Nodup := by
  suffices h : ∀ m : List (α × List β), (m.map (fun q => q.1)).Nodup →
      (((pairs.foldl (fun acc q => insertAssoc acc q.1 q.2) m)).map
        (fun q => q.1)).Nodup by
    exact h [] (by simp)
  induction pairs with
  | nil => intro m hm; simpa using hm
  | cons q rest ih =>
    intro m hm
    simp only [List.foldl_cons]
    exact ih _ (nodupKeys_insertAssoc m q.1 q.2 hm)

/-- In a map with distinct keys, a member entry is what `lookupD` finds. -/
theorem mem_eq_lookupD {α β : Type} [DecidableEq α]
    (m : List (α × List β)) (k : α) (vs : List β)
    (hnd : (m.map (fun q => q.1)).Nodup) (hmem : (k, vs) ∈ m) :
    vs = lookupD m k := by
  induction m with
  | nil => simp at hmem
  | cons q rest ih =>
    obtain ⟨k0, vs0⟩ := q
    simp only [List.map_cons, List.nodup_cons] at hnd
    rcases List.mem_cons.mp hmem with he | hmem'
    · obtain ⟨hk, hv⟩ := Prod.ext_iff.mp he
      simp only at hk hv
      subst hk
      simp [lookupD_cons, hv]
    · have hk0 : k0 ≠ k := by
        intro h
        subst h
        exact hnd.1 (List.mem_map.mpr ⟨(k0, vs), hmem', rfl⟩)
      rw [lookupD_cons, if_neg hk0]
      exact ih hnd.2 hmem'

/-- A member entry of `buildMap pairs` holds exactly the values of its key. -/
theorem mem_buildMap_eq_collect {α β : Type} [DecidableEq α]
    (pairs : List (α × β)) (k : α) (vs : List β)
    (hmem : (k, vs) ∈ buildMap pairs) :
    vs = collectByKey pairs k := by
  rw [mem_eq_lookupD (buildMap pairs) k vs (nodupKeys_buildMap pairs) hmem]
  exact lookupD_buildMap pairs k

theorem mem_retainMultiple {α β : Type} (m : List (α × List β)) (k : α)
    (vs : List β) :
    (k, vs) ∈ retainMultiple m ↔ (k, vs) ∈ m ∧ 1 < vs.length := by
  simp [retainMultiple, List.mem_filter]

/-- `utils::INTERRUPTED` as observed by one stage: `intr n` is the value
read at the stage's n-th check of the flag (the handler writes it
asynchronously, so each relaxed load is an independent observation). -/
def InterruptObs : Type := Nat → Bool

/-- The dot-name test `dir.file_name().and_then(|n| n.to_str())` followed
by `name.starts_with('.')` applied to the root directory. -/
def rootDotNamed (root : RootDir) : Bool :=
  match root.fileName with
  | some (c :: _) => c = '.'
  | _ => false

/-- The per-entry loop of `scanner::scan_files`: checks the interrupt flag
at the top of each iteration (`bail!` on interrupt), skips walkdir error
entries, symlinks when links are not followed, non-regular files, entries
whose metadata cannot be read, and files below `min_size`; accumulates the
rest. `events` is the sequence the (external) walkdir traversal yields
after `filter_entry`; `none` stands for an `Err` entry. -/
def scan_loop (intr : InterruptObs) (follow_links : Bool) (min_size : Nat) :
    Nat → List (Option FileEntry) → List FileEntry →
    Except String (List FileEntry)
  | _, [], acc => .ok acc
  | i, ev :: rest, acc =>
    if intr i then .error "Scan interrupted by user"
    else
      match ev with
      | none => scan_loop intr follow_links min_size (i + 1) rest acc
      | some e =>
        if !follow_links && e.isSymlink then
          scan_loop intr follow_links min_size (i + 1) rest acc
        else if !e.isFile then
          scan_loop intr follow_links min_size (i + 1) rest acc
        else if !e.metaOk then
          scan_loop intr follow_links min_size (i + 1) rest acc
        else if e.content.length < min_size then
          scan_loop intr follow_links min_size (i + 1) rest acc
        else
          scan_loop intr follow_links min_size (i + 1) rest (acc ++ [e])

/-- `scanner::scan_files`: when hidden entries are excluded and the root
itself is dot-named or carries the OS hidden attribute, returns an empty
list at once (no traversal); otherwise runs the entry loop over the
traversal's yields. -/
def scan_files (intr : InterruptObs) (root : RootDir) (include_hidden : Bool)
    (follow_links : Bool) (min_size : Nat) (events : List (Option FileEntry)) :
    Except String (List FileEntry) :=
  if !include_hidden && rootDotNamed root then .ok []
  else if !include_hidden && root.hiddenFlag then .ok []
  else scan_loop intr follow_links min_size 0 events []

/-- The `filter_map` body of `scanner::group_by_size`, sequenced with the
index of the flag observation made for each file: a file is skipped when
the interrupt flag is observed set, when its metadata cannot be read, or
when its size is zero; otherwise it emits the pair (size, path). -/
def groupPairsFrom (intr : InterruptObs) : Nat → List FileEntry →
    List (Nat × String)
  | _, [] => []
  | i, f :: rest =>
    if intr i then groupPairsFrom intr (i + 1) rest
    else if !f.metaOk then groupPairsFrom intr (i + 1) rest
    else if f.content.length = 0 then groupPairsFrom intr (i + 1) rest
    else (f.content.length, f.path) :: groupPairsFrom intr (i + 1) rest

/-- `scanner::group_by_size`: fold the emitted (size, path) pairs into a
size-keyed map, then `retain(|_, files| files.len() > 1)`. The function
has no error path: it always returns `Ok`. -/
def group_by_size (intr : InterruptObs) (files : List FileEntry) :
    Except String (List (Nat × List String)) :=
  .ok (retainMultiple (buildMap (groupPairsFrom intr 0 files)))

/-- Look up a path on disk: `File::open` succeeds exactly on present
paths. -/
def findFile (fs : List FileEntry) (p : String) : Option FileEntry :=
  fs.find? (fun f => f.path = p)

/-- `hasher::quick_hash_file`: open the file, read at most `sample_size`
bytes from its start, and hash the bytes read. Fails when the file cannot
be opened or the read fails. -/
def quick_hash_file {δ : Type} (hashFn : List Nat → δ) (fs : List FileEntry)
    (sample_size : Nat) (p : String) : Option δ :=
  match findFile fs p with
  | none => none
  | some f => if f.quickOk then some (hashFn (f.content.take sample_size)) else none

/-- `hasher::full_hash_file`: open the file, stream its entire content
into the hasher. Fails when the file cannot be opened or a read fails. -/
def full_hash_file {δ : Type} (hashFn : List Nat → δ) (fs : List FileEntry)
    (p : String) : Option δ :=
  match findFile fs p with
  | none => none
  | some f => if f.fullOk then some (hashFn f.content) else none

/-- Stage A of one bucket in `hasher::compute_hashes`: quick-hash every
path (dropping those that error), group by quick digest, keep quick
groups with at least 2 members. -/
def quickGroups {δ : Type} [DecidableEq δ] (hashFn : List Nat → δ)
    (fs : List FileEntry) (sample_size : Nat) (files : List String) :
    List (δ × List String) :=
  (buildMap (files.filterMap (fun p =>
    (quick_hash_file hashFn fs sample_size p).map (fun h => (h, p))))).filter
    (fun q => 2 ≤ q.2.length)

/-- Stage B of one bucket: full-hash every survivor of Stage A (dropping
those that error), emitting (full digest, path) pairs. -/
def bucketResults {δ : Type} [DecidableEq δ] (hashFn : List Nat → δ)
    (fs : List FileEntry) (sample_size : Nat) (files : List String) :
    List (δ × String) :=
  (quickGroups hashFn fs sample_size files).flatMap (fun q =>
    q.2.filterMap (fun p =>
      (full_hash_file hashFn fs p).map (fun h => (h, p))))

/-- The bucket loop of `hasher::compute_hashes`, sequenced with the index
of the interrupt observation made for each bucket: a bucket whose check
observes the flag set contributes an empty result; otherwise it runs both
hash stages. -/
def bucketsFrom {δ : Type} [DecidableEq δ] (intr : InterruptObs)
    (hashFn : List Nat → δ) (fs : List FileEntry) (sample_size : Nat) :
    Nat → List (Nat × List String) → List (δ × String)
  | _, [] => []
  | i, g :: rest =>
    (if intr i then [] else bucketResults hashFn fs sample_size g.2) ++
      bucketsFrom intr hashFn fs sample_size (i + 1) rest

/-- `hasher::compute_hashes`: keep buckets with at least 2 files, run the
two-stage hash on each (skipping buckets whose interrupt check fires),
fold all (digest, path) pairs into one map, and
`retain(|_, files| files.len() > 1)`. No error path: always `Ok`. -/
def compute_hashes {δ : Type} [DecidableEq δ] (intr : InterruptObs)
    (hashFn : List Nat → δ) (fs : List FileEntry) (sample_size : Nat)
    (groups : List (Nat × List String)) :
    Except String (List (δ × List String)) :=
  .ok (retainMultiple (buildMap (bucketsFrom intr hashFn fs sample_size 0
    (groups.filter (fun g => 2 ≤ g.2.length)))))

/-- What the OS reports for the root path argument: whether it exists and
whether it is a directory. -/
structure PathStatus where
  present : Bool
  isDir : Bool
  deriving Repr, DecidableEq

/-- `utils::validate_path`: error when the path does not exist, error when
it is not a directory, success otherwise. -/
def validate_path (path : String) (st : PathStatus) : Except String Unit :=
  if !st.present then .error ("Path does not exist: " ++ path)
  else if !st.isDir then .error ("Path is not a directory: " ++ path)
  else .ok ()

/-- The wasted-space contribution of one duplicate group in
`statistics::calculate_statistics`: re-read the metadata of the group's
first file and multiply its size by (member count − 1); `none` when the
group is empty or the metadata read fails (the group then contributes
nothing to the sum). -/
def groupWasted {δ : Type} (fs : List FileEntry) (g : δ × List String) :
    Option Nat :=
  match g.2.head? with
  | none => none
  | some p =>
    match findFile fs p with
    | none => none
    | some f => if f.metaOk then some (f.content.length * (g.2.length - 1)) else none

/-- `total_wasted_space` of `statistics::calculate_statistics`: sum of
the per-group contributions that could be computed. -/
def total_wasted_space {δ : Type} (fs : List FileEntry)
    (hashes : List (δ × List String)) : Nat :=
  (hashes.filterMap (groupWasted fs)).sum

/-- The driver order of `main`: validate the root path first, and only on
success run scan, size partition and hashing. -/
def run_pipeline {δ : Type} [DecidableEq δ] (path : String) (st : PathStatus)
    (intr : InterruptObs) (root : RootDir) (include_hidden : Bool)
    (follow_links : Bool) (min_size : Nat) (events : List (Option FileEntry))
    (hashFn : List Nat → δ) (fs : List FileEntry) (sample_size : Nat) :
    Except String (List (δ × List String)) := do
  let _ ← validate_path path st
  let files ← scan_files intr root include_hidden follow_links min_size events
  let groups ← group_by_size intr files
  compute_hashes intr hashFn fs sample_size groups

/-- A value sitting in an entry of a built map came from a pair of the
input list with that entry's key. -/
theorem mem_buildMap_pairs {α β : Type} [DecidableEq α]
    (pairs : List (α × β)) (k : α) (vs : List β) (v : β)
    (hmem : (k, vs) ∈ buildMap pairs) (hv : v ∈ vs) : (k, v) ∈ pairs := by
  rw [mem_buildMap_eq_collect pairs k vs hmem] at hv
  exact (mem_collectByKey pairs k v).mp hv

theorem quick_hash_file_eq_some {δ : Type} (hashFn : List Nat → δ)
    (fs : List FileEntry) (sample_size : Nat) (p : String) (d : δ) :
    quick_hash_file hashFn fs sample_size p = some d ↔
      ∃ f, findFile fs p = some f ∧ f.quickOk = true ∧
        d = hashFn (f.content.take sample_size) := by
  cases hf : findFile fs p with
  | none => simp [quick_hash_file, hf]
  | some f =>
    cases hq : f.quickOk
    · simp [quick_hash_file, hf, hq]
    · constructor
      · intro h
        simp only [quick_hash_file, hf, hq, if_true, Option.some.injEq] at h
        exact ⟨f, rfl, hq, h.symm⟩
      · rintro ⟨f1, hf1, _, hd⟩
        obtain rfl : f = f1 := Option.some.inj hf1
        simp [quick_hash_file, hf, hq, hd]

theorem full_hash_file_eq_some {δ : Type} (hashFn : List Nat → δ)
    (fs : List FileEntry) (p : String) (d : δ) :
    full_hash_file hashFn fs p = some d ↔
      ∃ f, findFile fs p = some f ∧ f.fullOk = true ∧ d = hashFn f.content := by
  cases hf : findFile fs p with
  | none => simp [full_hash_file, hf]
  | some f =>
    cases hq : f.fullOk
    · simp [full_hash_file, hf, hq]
    · constructor
      · intro h
        simp only [full_hash_file, hf, hq, if_true, Option.some.injEq] at h
        exact ⟨f, rfl, hq, h.symm⟩
      · rintro ⟨f1, hf1, _, hd⟩
        obtain rfl : f = f1 := Option.some.inj hf1
        simp [full_hash_file, hf, hq, hd]

/-- Every (digest, path) pair emitted by the bucket loop comes from some
bucket's Stage B: the path survived Stage A and its full hash succeeded
with that digest. -/
theorem mem_bucketsFrom {δ : Type} [DecidableEq δ] (intr : InterruptObs)
    (hashFn : List Nat → δ) (fs : List FileEntry) (sample_size : Nat)
    (i : Nat) (gs : List (Nat × List String)) (d : δ) (p : String)
    (hmem : (d, p) ∈ bucketsFrom intr hashFn fs sample_size i gs) :
    ∃ g ∈ gs, (d, p) ∈ bucketResults hashFn fs sample_size g.2 := by
  induction gs generalizing i with
  | nil => simp [bucketsFrom] at hmem
  | cons g rest ih =>
    simp only [bucketsFrom, List.mem_append] at hmem
    rcases hmem with hmem | hmem
    · by_cases hi : intr i
      · simp [hi] at hmem
      · refine ⟨g, List.mem_cons_self .., ?_⟩
        simpa [hi] using hmem
    · obtain ⟨g', hg', hres⟩ := ih (i + 1) hmem
      exact ⟨g', List.mem_cons_of_mem _ hg', hres⟩

/-- Every (digest, path) pair emitted for a bucket carries a successful
full hash of the path, and the path also quick-hashed successfully. -/
theorem mem_bucketResults {δ : Type} [DecidableEq δ]
    (hashFn : List Nat → δ) (fs : List FileEntry) (sample_size : Nat)
    (files : List String) (d : δ) (p : String)
    (hmem : (d, p) ∈ bucketResults hashFn fs sample_size files) :
    full_hash_file hashFn fs p = some d ∧
      ∃ dq, quick_hash_file hashFn fs sample_size p = some dq := by
  simp only [bucketResults, List.mem_flatMap] at hmem
  obtain ⟨q, hq, hp⟩ := hmem
  simp only [List.mem_filterMap, Option.map_eq_some'] at hp
  obtain ⟨p0, hp0, dfull, hfull, heq⟩ := hp
  obtain ⟨hd, hpp⟩ := Prod.ext_iff.mp heq
  simp only at hd hpp
  subst hd; subst hpp
  refine ⟨hfull, ?_⟩
  simp only [quickGroups, List.mem_filter] at hq
  have hq2 := hq.1
  obtain ⟨dq, hdq⟩ :
      ∃ dq, (dq, p0) ∈ (files.filterMap (fun p =>
        (quick_hash_file hashFn fs sample_size p).map (fun h => (h, p)))) := by
    exact ⟨q.1, mem_buildMap_pairs _ q.1 q.2 p0 (by
      obtain ⟨a, b⟩ := q; exact hq2) hp0⟩
  simp only [List.mem_filterMap, Option.map_eq_some'] at hdq
  obtain ⟨p1, _, dq1, hdq1, heq1⟩ := hdq
  obtain ⟨hd1, hp1⟩ := Prod.ext_iff.mp heq1
  simp only at hd1 hp1
  subst hp1
  exact ⟨dq1, hdq1⟩

/-- Every (size, path) pair emitted by the size-partition filter comes
from a file of the input with readable metadata and that nonzero size. -/
theorem mem_groupPairsFrom (intr : InterruptObs) (i : Nat)
    (files : List FileEntry) (s : Nat) (p : String)
    (hmem : (s, p) ∈ groupPairsFrom intr i files) :
    ∃ f ∈ files, f.path = p ∧ f.metaOk = true ∧ f.content.length = s ∧ s ≠ 0 := by
  induction files generalizing i with
  | nil => simp [groupPairsFrom] at hmem
  | cons f rest ih =>
    cases hi : intr i with
    | true =>
      simp only [groupPairsFrom, hi, if_true] at hmem
      obtain ⟨f', hf', hrest⟩ := ih (i + 1) hmem
      exact ⟨f', List.mem_cons_of_mem _ hf', hrest⟩
    | false =>
      cases hm : f.metaOk with
      | false =>
        simp only [groupPairsFrom, hi, hm, Bool.false_eq_true, if_false,
          Bool.not_false, if_true] at hmem
        obtain ⟨f', hf', hrest⟩ := ih (i + 1) hmem
        exact ⟨f', List.mem_cons_of_mem _ hf', hrest⟩
      | true =>
        by_cases hz : f.content.length = 0
        · simp only [groupPairsFrom, hi, hm, Bool.false_eq_true, if_false,
            Bool.not_true, if_pos hz] at hmem
          obtain ⟨f', hf', hrest⟩ := ih (i + 1) hmem
          exact ⟨f', List.mem_cons_of_mem _ hf', hrest⟩
        · simp only [groupPairsFrom, hi, hm, Bool.false_eq_true, if_false,
            Bool.not_true, if_neg hz, List.mem_cons] at hmem
          rcases hmem with he | hmem
          · obtain ⟨hs, hp⟩ := Prod.ext_iff.mp he
            simp only at hs hp
            subst hs; subst hp
            exact ⟨f, List.mem_cons_self .., rfl, hm, rfl, hz⟩
          · obtain ⟨f', hf', hrest⟩ := ih (i + 1) hmem
            exact ⟨f', List.mem_cons_of_mem _ hf', hrest⟩

/-- C3: every key in the final digest-to-files mapping returned by the
hash stage has at least 2 member files, and every size bucket emitted by
the size partition (the hash stage's input) has at least 2 member files;
no singleton group is ever reported. -/
theorem C3_no_singleton_groups {δ : Type} [DecidableEq δ]
    (intrG intrH : InterruptObs) (hashFn : List Nat → δ)
    (fs : List FileEntry) (files : List FileEntry)
    (groups : List (Nat × List String)) (sample_size : Nat)
    (gm : List (Nat × List String)) (hm : List (δ × List String))
    (hg : group_by_size intrG files = .ok gm)
    (hh : compute_hashes intrH hashFn fs sample_size groups = .ok hm) :
    (∀ s ps, (s, ps) ∈ gm → 2 ≤ ps.length) ∧
    (∀ d qs, (d, qs) ∈ hm → 2 ≤ qs.length) := by
  simp only [group_by_size, Except.ok.injEq] at hg
  simp only [compute_hashes, Except.ok.injEq] at hh
  subst hg; subst hh
  constructor
  · intro s ps hmem
    exact (mem_retainMultiple _ s ps).mp hmem |>.2
  · intro d qs hmem
    exact (mem_retainMultiple _ d qs).mp hmem |>.2

/-- Witness for C3 at a concrete run: two identical 2-byte files in one
size bucket survive to a single duplicate group of 2 members. -/
theorem C3_no_singleton_groups_witness :
    (∀ s ps, (s, ps) ∈ [(2, (["a", "b"] : List String))] → 2 ≤ ps.length) ∧
    (∀ d qs, (d, qs) ∈ [(([1, 2] : List Nat), (["a", "b"] : List String))] →
      2 ≤ qs.length) :=
  C3_no_singleton_groups (fun _ => false) (fun _ => false) (fun l => l)
    [⟨"a", true, false, [1, 2], true, true, true⟩,
     ⟨"b", true, false, [1, 2], true, true, true⟩]
    [⟨"a", true, false, [1, 2], true, true, true⟩,
     ⟨"b", true, false, [1, 2], true, true, true⟩]
    [(2, ["a", "b"])] 10 _ _ rfl rfl

/-- C4: for a file whose byte length is at most the configured sample
size and whose reads succeed, the quick (partial) hash equals the full
hash — both feed the file's entire content to the same hash primitive. -/
theorem C4_quick_hash_eq_full_hash_small {δ : Type} (hashFn : List Nat → δ)
    (fs : List FileEntry) (sample_size : Nat) (p : String) (f : FileEntry)
    (hf : findFile fs p = some f) (hq : f.quickOk = true)
    (hfl : f.fullOk = true) (hlen : f.content.length ≤ sample_size) :
    quick_hash_file hashFn fs sample_size p = full_hash_file hashFn fs p := by
  simp [quick_hash_file, full_hash_file, hf, hq, hfl,
    List.take_of_length_le hlen]

/-- Witness for C4: a 3-byte file under an 8192-byte sample cap. -/
theorem C4_quick_hash_eq_full_hash_small_witness :
    quick_hash_file (fun l => l)
      [⟨"a", true, false, [5, 6, 7], true, true, true⟩] 8192 "a" =
    full_hash_file (fun l => l)
      [⟨"a", true, false, [5, 6, 7], true, true, true⟩] "a" :=
  C4_quick_hash_eq_full_hash_small (fun l => l)
    [⟨"a", true, false, [5, 6, 7], true, true, true⟩] 8192 "a"
    ⟨"a", true, false, [5, 6, 7], true, true, true⟩ rfl rfl rfl (by decide)

/-- C5: the size partition never emits a bucket keyed by size zero, and
every member of an emitted bucket is a file of the input whose readable
size equals the bucket's nonzero key — zero-length files land in no
bucket. -/
theorem C5_zero_length_excluded (intr : InterruptObs)
    (files : List FileEntry) (gm : List (Nat × List String))
    (hg : group_by_size intr files = .ok gm)
    (s : Nat) (ps : List String) (hmem : (s, ps) ∈ gm) :
    0 < s ∧ ∀ p ∈ ps, ∃ f ∈ files, f.path = p ∧ f.metaOk = true ∧
      f.content.length = s := by
  simp only [group_by_size, Except.ok.injEq] at hg
  subst hg
  obtain ⟨hbm, hlen⟩ := (mem_retainMultiple _ s ps).mp hmem
  have hne : ps ≠ [] := by
    intro h
    rw [h] at hlen
    simp at hlen
  obtain ⟨p0, hp0⟩ := List.exists_mem_of_ne_nil ps hne
  have hpair0 := mem_buildMap_pairs _ s ps p0 hbm hp0
  obtain ⟨f0, _, _, _, _, hs0⟩ := mem_groupPairsFrom intr 0 files s p0 hpair0
  refine ⟨Nat.pos_of_ne_zero hs0, ?_⟩
  intro p hp
  have hpair := mem_buildMap_pairs _ s ps p hbm hp
  obtain ⟨f, hfmem, hfp, hfm, hfs, _⟩ := mem_groupPairsFrom intr 0 files s p hpair
  exact ⟨f, hfmem, hfp, hfm, hfs⟩

/-- Witness for C5: a 2-byte duplicate pair scanned alongside a pair of
zero-length files; the only bucket has key 2. -/
theorem C5_zero_length_excluded_witness :
    0 < 2 ∧ ∀ p ∈ (["a", "b"] : List String),
      ∃ f ∈ [(⟨"a", true, false, [1, 2], true, true, true⟩ : FileEntry),
             ⟨"b", true, false, [1, 2], true, true, true⟩,
             ⟨"z", true, false, [], true, true, true⟩,
             ⟨"w", true, false, [], true, true, true⟩],
        f.path = p ∧ f.metaOk = true ∧ f.content.length = 2 :=
  C5_zero_length_excluded (fun _ => false)
    [⟨"a", true, false, [1, 2], true, true, true⟩,
     ⟨"b", true, false, [1, 2], true, true, true⟩,
     ⟨"z", true, false, [], true, true, true⟩,
     ⟨"w", true, false, [], true, true, true⟩]
    [(2, ["a", "b"])] rfl 2 ["a", "b"] (by decide)

/-- C9: when the root path does not exist or is not a directory, path
validation produces a descriptive error and the pipeline driver returns
that very error (no stage runs); for an existing directory validation
succeeds. -/
theorem C9_validate_path_gate {δ : Type} [DecidableEq δ] (path : String)
    (st : PathStatus) (intr : InterruptObs) (root : RootDir)
    (include_hidden follow_links : Bool) (min_size : Nat)
    (events : List (Option FileEntry)) (hashFn : List Nat → δ)
    (fs : List FileEntry) (sample_size : Nat) :
    (st.present = false ∨ st.isDir = false →
      ∃ msg, validate_path path st = .error msg ∧
        run_pipeline path st intr root include_hidden follow_links min_size
          events hashFn fs sample_size = .error msg) ∧
    (st.present = true → st.isDir = true → validate_path path st = .ok ()) := by
  constructor
  · intro h
    cases hp : st.present with
    | false =>
      refine ⟨"Path does not exist: " ++ path, ?_, ?_⟩
      · simp [validate_path, hp]
      · simp [run_pipeline, validate_path, hp, Bind.bind, Except.bind]
    | true =>
      have hd : st.isDir = false := by
        rcases h with h | h
        · rw [h] at hp; exact absurd hp (by simp)
        · exact h
      refine ⟨"Path is not a directory: " ++ path, ?_, ?_⟩
      · simp [validate_path, hp, hd]
      · simp [run_pipeline, validate_path, hp, hd, Bind.bind, Except.bind]
  · intro hp hd
    simp [validate_path, hp, hd]

/-- Witness for C9: a missing path is rejected by validation and by the
driver with the same message. -/
theorem C9_validate_path_gate_witness :
    (PathStatus.present ⟨false, false⟩ = false ∨
      PathStatus.isDir ⟨false, false⟩ = false →
      ∃ msg, validate_path "/nope" ⟨false, false⟩ = .error msg ∧
        run_pipeline "/nope" ⟨false, false⟩ (fun _ => false)
          ⟨some ['r'], false⟩ false false 0 [] (fun l => l) [] 10 =
          .error msg) ∧
    (PathStatus.present ⟨false, false⟩ = true →
      PathStatus.isDir ⟨false, false⟩ = true →
      validate_path "/nope" ⟨false, false⟩ = .ok ()) :=
  C9_validate_path_gate "/nope" ⟨false, false⟩ (fun _ => false)
    ⟨some ['r'], false⟩ false false 0 [] (fun l => l) [] 10

/-- C10: with hidden entries excluded (the default), scanning a root
whose own name begins with a dot or that carries the OS hidden attribute
succeeds with an empty file list, for every traversal and flag behaviour;
with a valid root path the whole pipeline then reports zero duplicate
groups without error. -/
theorem C10_hidden_root_scans_empty {δ : Type} [DecidableEq δ]
    (path : String) (st : PathStatus) (intr : InterruptObs) (root : RootDir)
    (follow_links : Bool) (min_size : Nat) (events : List (Option FileEntry))
    (hashFn : List Nat → δ) (fs : List FileEntry) (sample_size : Nat)
    (h : rootDotNamed root = true ∨ root.hiddenFlag = true)
    (hp : st.present = true) (hd : st.isDir = true) :
    scan_files intr root false follow_links min_size events = .ok [] ∧
    run_pipeline path st intr root false follow_links min_size events
      hashFn fs sample_size = .ok [] := by
  have hscan : scan_files intr root false follow_links min_size events =
      .ok [] := by
    rcases h with h | h
    · simp [scan_files, h]
    · cases hdn : rootDotNamed root <;> simp [scan_files, h, hdn]
  refine ⟨hscan, ?_⟩
  simp [run_pipeline, validate_path, hp, hd, hscan, Bind.bind, Except.bind,
    group_by_size, compute_hashes, groupPairsFrom, bucketsFrom, buildMap,
    retainMultiple]

/-- Witness for C10: a dot-named root with a nonempty traversal under it
still yields an empty scan and an empty duplicate report. -/
theorem C10_hidden_root_scans_empty_witness :
    scan_files (fun _ => false) ⟨some ['.', 'd'], false⟩ false false 0
      [some ⟨"a", true, false, [1, 2], true, true, true⟩] = .ok [] ∧
    run_pipeline "/x/.d" ⟨true, true⟩ (fun _ => false) ⟨some ['.', 'd'], false⟩
      false false 0 [some ⟨"a", true, false, [1, 2], true, true, true⟩]
      (fun l => l) [⟨"a", true, false, [1, 2], true, true, true⟩] 10 = .ok [] :=
  C10_hidden_root_scans_empty "/x/.d" ⟨true, true⟩ (fun _ => false)
    ⟨some ['.', 'd'], false⟩ false 0
    [some ⟨"a", true, false, [1, 2], true, true, true⟩] (fun l => l)
    [⟨"a", true, false, [1, 2], true, true, true⟩] 10 (by exact Or.inl rfl)
    rfl rfl

/-- C2: assuming the full-content hash is collision-free (injective on
byte streams), any two files grouped under the same full digest by the
hash stage have identical content and hence identical byte length; files
of differing lengths never co-occur under one digest. -/
theorem C2_size_invariant {δ : Type} [DecidableEq δ] (intr : InterruptObs)
    (hashFn : List Nat → δ) (hinj : Function.Injective hashFn)
    (fs : List FileEntry) (sample_size : Nat)
    (groups : List (Nat × List String)) (hm : List (δ × List String))
    (hh : compute_hashes intr hashFn fs sample_size groups = .ok hm)
    (d : δ) (qs : List String) (hmem : (d, qs) ∈ hm)
    (p1 p2 : String) (hp1 : p1 ∈ qs) (hp2 : p2 ∈ qs) :
    ∃ f1 f2, findFile fs p1 = some f1 ∧ findFile fs p2 = some f2 ∧
      f1.content = f2.content ∧ f1.content.length = f2.content.length := by
  simp only [compute_hashes, Except.ok.injEq] at hh
  subst hh
  have hbm := ((mem_retainMultiple _ d qs).mp hmem).1
  have hpair1 := mem_buildMap_pairs _ d qs p1 hbm hp1
  have hpair2 := mem_buildMap_pairs _ d qs p2 hbm hp2
  obtain ⟨g1, _, hres1⟩ := mem_bucketsFrom intr hashFn fs sample_size 0 _ d p1 hpair1
  obtain ⟨g2, _, hres2⟩ := mem_bucketsFrom intr hashFn fs sample_size 0 _ d p2 hpair2
  obtain ⟨hfull1, _⟩ := mem_bucketResults hashFn fs sample_size g1.2 d p1 hres1
  obtain ⟨hfull2, _⟩ := mem_bucketResults hashFn fs sample_size g2.2 d p2 hres2
  obtain ⟨f1, hf1, _, hd1⟩ := (full_hash_file_eq_some hashFn fs p1 d).mp hfull1
  obtain ⟨f2, hf2, _, hd2⟩ := (full_hash_file_eq_some hashFn fs p2 d).mp hfull2
  have hc : f1.content = f2.content := hinj (hd1.symm.trans hd2)
  exact ⟨f1, f2, hf1, hf2, hc, by rw [hc]⟩

/-- Witness for C2 at a concrete run with the identity digest (which is
injective): the two members of the only group share content and length. -/
theorem C2_size_invariant_witness :
    ∃ f1 f2,
      findFile [(⟨"a", true, false, [1, 2], true, true, true⟩ : FileEntry),
                ⟨"b", true, false, [1, 2], true, true, true⟩] "a" = some f1 ∧
      findFile [(⟨"a", true, false, [1, 2], true, true, true⟩ : FileEntry),
                ⟨"b", true, false, [1, 2], true, true, true⟩] "b" = some f2 ∧
      f1.content = f2.content ∧ f1.content.length = f2.content.length :=
  C2_size_invariant (fun _ => false) (fun l => l) (fun _ _ h => h)
    [⟨"a", true, false, [1, 2], true, true, true⟩,
     ⟨"b", true, false, [1, 2], true, true, true⟩] 10
    [(2, ["a", "b"])] [([1, 2], ["a", "b"])] rfl [1, 2] ["a", "b"]
    (by decide) "a" "b" (by decide) (by decide)

/-- C7: a file whose quick-hash or full-hash read errors is silently
excluded: the hash stage still returns a normal result (it never aborts),
and the erroring file's path appears under no digest of that result (no
digest is fabricated for it). -/
theorem C7_hash_error_file_excluded {δ : Type} [DecidableEq δ]
    (intr : InterruptObs) (hashFn : List Nat → δ) (fs : List FileEntry)
    (sample_size : Nat) (groups : List (Nat × List String)) (p : String)
    (herr : quick_hash_file hashFn fs sample_size p = none ∨
      full_hash_file hashFn fs p = none) :
    ∃ hm, compute_hashes intr hashFn fs sample_size groups = .ok hm ∧
      ∀ d qs, (d, qs) ∈ hm → p ∉ qs := by
  refine ⟨_, rfl, ?_⟩
  intro d qs hmem hp
  have hbm := ((mem_retainMultiple _ d qs).mp hmem).1
  have hpair := mem_buildMap_pairs _ d qs p hbm hp
  obtain ⟨g, _, hres⟩ := mem_bucketsFrom intr hashFn fs sample_size 0 _ d p hpair
  obtain ⟨hfull, dq, hquick⟩ := mem_bucketResults hashFn fs sample_size g.2 d p hres
  rcases herr with herr | herr
  · rw [herr] at hquick; exact Option.noConfusion hquick
  · rw [herr] at hfull; exact Option.noConfusion hfull

/-- Witness for C7: file "a" fails its quick hash, so it is absent from
the one duplicate group the run still reports for "b" and "c". -/
theorem C7_hash_error_file_excluded_witness :
    ∃ hm, compute_hashes (fun _ => false) (fun l => l)
        [(⟨"a", true, false, [1, 2], true, false, true⟩ : FileEntry),
         ⟨"b", true, false, [1, 2], true, true, true⟩,
         ⟨"c", true, false, [1, 2], true, true, true⟩] 10
        [(2, ["a", "b", "c"])] = .ok hm ∧
      ∀ d qs, (d, qs) ∈ hm → "a" ∉ qs :=
  C7_hash_error_file_excluded (fun _ => false) (fun l => l)
    [⟨"a", true, false, [1, 2], true, false, true⟩,
     ⟨"b", true, false, [1, 2], true, true, true⟩,
     ⟨"c", true, false, [1, 2], true, true, true⟩] 10
    [(2, ["a", "b", "c"])] "a" (Or.inl rfl)

/-- The spec's notion of a duplicate group's file size: the on-disk size
of the group's first member, 0 when the group is empty or unreadable. -/
def specGroupSize {δ : Type} (fs : List FileEntry) (g : δ × List String) : Nat :=
  match g.2.head? with
  | none => 0
  | some p =>
    match findFile fs p with
    | none => 0
    | some f => f.content.length

/-- The spec's reported reclaimable space: Σ over groups of
size × (member count − 1). -/
def specWastedSpace {δ : Type} (fs : List FileEntry)
    (hashes : List (δ × List String)) : Nat :=
  (hashes.map (fun g => specGroupSize fs g * (g.2.length - 1))).sum

/-- C6: when every reported group is nonempty and its first member's
metadata is readable (true of any group the pipeline emits over unchanged
files), the total wasted space computed by the statistics stage equals
the spec's Σ over groups of size × (member count − 1). -/
theorem C6_wasted_space_formula {δ : Type} (fs : List FileEntry)
    (hashes : List (δ × List String))
    (hok : ∀ g ∈ hashes, ∃ p f, g.2.head? = some p ∧
      findFile fs p = some f ∧ f.metaOk = true) :
    total_wasted_space fs hashes = specWastedSpace fs hashes := by
  induction hashes with
  | nil => rfl
  | cons g rest ih =>
    obtain ⟨p, f, hp, hf, hmOk⟩ := hok g (List.mem_cons_self ..)
    have hg : groupWasted fs g = some (f.content.length * (g.2.length - 1)) := by
      simp [groupWasted, hp, hf, hmOk]
    have hsz : specGroupSize fs g = f.content.length := by
      simp [specGroupSize, hp, hf]
    have hrest : total_wasted_space fs rest = specWastedSpace fs rest :=
      ih (fun g' hg' => hok g' (List.mem_cons_of_mem _ hg'))
    simp only [total_wasted_space, specWastedSpace, List.filterMap_cons, hg,
      List.map_cons, List.sum_cons, hsz]
    simp only [total_wasted_space, specWastedSpace] at hrest
    rw [hrest]

/-- Witness for C6: one 3-member group of 2-byte files wastes 2 × 2 = 4
bytes, matching the spec formula. -/
theorem C6_wasted_space_formula_witness :
    total_wasted_space
      [(⟨"a", true, false, [1, 2], true, true, true⟩ : FileEntry),
       ⟨"b", true, false, [1, 2], true, true, true⟩,
       ⟨"c", true, false, [1, 2], true, true, true⟩]
      [(([1, 2] : List Nat), (["a", "b", "c"] : List String))] =
    specWastedSpace
      [(⟨"a", true, false, [1, 2], true, true, true⟩ : FileEntry),
       ⟨"b", true, false, [1, 2], true, true, true⟩,
       ⟨"c", true, false, [1, 2], true, true, true⟩]
      [(([1, 2] : List Nat), (["a", "b", "c"] : List String))] :=
  C6_wasted_space_formula
    [⟨"a", true, false, [1, 2], true, true, true⟩,
     ⟨"b", true, false, [1, 2], true, true, true⟩,
     ⟨"c", true, false, [1, 2], true, true, true⟩]
    [([1, 2], ["a", "b", "c"])]
    (by
      intro g hg
      simp only [List.mem_singleton] at hg
      subst hg
      exact ⟨"a", ⟨"a", true, false, [1, 2], true, true, true⟩, rfl, rfl, rfl⟩)

/-- Counterexample for C1: the claim says no stage ever returns an error
solely because the interrupt flag was observed set, but the scan stage
does — with the flag set and one entry pending, `scan_files` returns the
error "Scan interrupted by user" instead of a partial result. -/
theorem C1_scan_interrupt_error_counterexample :
    scan_files (fun _ => true) ⟨some ['r'], false⟩ false false 0
      [some ⟨"a", true, false, [1, 2], true, true, true⟩] =
      .error "Scan interrupted by user" := rfl

/-- An uninterrupted size-partition filter does not depend on the start
index of its flag observations. -/
theorem groupPairsFrom_false_irrel (i j : Nat) (files : List FileEntry) :
    groupPairsFrom (fun _ => false) i files =
      groupPairsFrom (fun _ => false) j files := by
  induction files generalizing i j with
  | nil => rfl
  | cons f rest ih =>
    simp only [groupPairsFrom, Bool.false_eq_true, if_false, ih (i + 1) (j + 1)]

/-- An uninterrupted bucket loop does not depend on the start index of
its flag observations. -/
theorem bucketsFrom_false_irrel {δ : Type} [DecidableEq δ]
    (hashFn : List Nat → δ) (fs : List FileEntry) (sample_size : Nat)
    (i j : Nat) (gs : List (Nat × List String)) :
    bucketsFrom (fun _ => false) hashFn fs sample_size i gs =
      bucketsFrom (fun _ => false) hashFn fs sample_size j gs := by
  induction gs generalizing i j with
  | nil => rfl
  | cons g rest ih =>
    simp only [bucketsFrom, Bool.false_eq_true, if_false, ih (i + 1) (j + 1)]

/-- Shifting the start index of the size-partition filter is the same as
shifting the flag-observation sequence. -/
theorem groupPairsFrom_shift (intr : InterruptObs) (j : Nat)
    (files : List FileEntry) :
    groupPairsFrom intr (j + 1) files =
      groupPairsFrom (fun i => intr (i + 1)) j files := by
  induction files generalizing j with
  | nil => rfl
  | cons f rest ih =>
    simp only [groupPairsFrom, ih (j + 1)]

/-- With the flag observed set at every check, the size-partition filter
emits nothing. -/
theorem groupPairsFrom_all_true (intr : InterruptObs)
    (hall : ∀ i, intr i = true) (j : Nat) (files : List FileEntry) :
    groupPairsFrom intr j files = [] := by
  induction files generalizing j with
  | nil => rfl
  | cons f rest ih =>
    simp only [groupPairsFrom, hall j, if_true]
    exact ih (j + 1)

/-- With a sticky (monotone) flag, the size-partition filter emits
exactly what an uninterrupted run emits over the prefix of files
processed before the flag was first observed set. -/
theorem groupPairsFrom_monotone_take (intr : InterruptObs)
    (hmono : ∀ i j, i ≤ j → intr i = true → intr j = true)
    (files : List FileEntry) :
    ∃ n, groupPairsFrom intr 0 files =
      groupPairsFrom (fun _ => false) 0 (files.take n) := by
  induction files generalizing intr with
  | nil => exact ⟨0, rfl⟩
  | cons f rest ih =>
    cases h0 : intr 0 with
    | true =>
      refine ⟨0, ?_⟩
      rw [groupPairsFrom_all_true intr (fun i => hmono 0 i (Nat.zero_le i) h0) 0]
      rfl
    | false =>
      have hmono' : ∀ i j, i ≤ j → intr (i + 1) = true → intr (j + 1) = true :=
        fun i j hij h => hmono (i + 1) (j + 1) (Nat.succ_le_succ hij) h
      obtain ⟨n, hn⟩ := ih (fun i => intr (i + 1)) hmono'
      refine ⟨n + 1, ?_⟩
      have hshift : groupPairsFrom intr 1 rest =
          groupPairsFrom (fun i => intr (i + 1)) 0 rest :=
        groupPairsFrom_shift intr 0 rest
      cases hm : f.metaOk with
      | false =>
        simp only [groupPairsFrom, h0, hm, List.take_succ_cons,
          Bool.false_eq_true, if_false, Bool.not_false, if_true]
        rw [hshift, hn]
        exact groupPairsFrom_false_irrel 0 (0 + 1) _
      | true =>
        by_cases hz : f.content.length = 0
        · simp only [groupPairsFrom, h0, hm, List.take_succ_cons,
            Bool.false_eq_true, if_false, Bool.not_true, if_pos hz]
          rw [hshift, hn]
          exact groupPairsFrom_false_irrel 0 (0 + 1) _
        · simp only [groupPairsFrom, h0, hm, List.take_succ_cons,
            Bool.false_eq_true, if_false, Bool.not_true, if_neg hz]
          rw [hshift, hn]
          rw [groupPairsFrom_false_irrel 0 (0 + 1) (rest.take n)]

/-- Shifting the start index of the bucket loop is the same as shifting
the flag-observation sequence. -/
theorem bucketsFrom_shift {δ : Type} [DecidableEq δ] (intr : InterruptObs)
    (hashFn : List Nat → δ) (fs : List FileEntry) (sample_size : Nat)
    (j : Nat) (gs : List (Nat × List String)) :
    bucketsFrom intr hashFn fs sample_size (j + 1) gs =
      bucketsFrom (fun i => intr (i + 1)) hashFn fs sample_size j gs := by
  induction gs generalizing j with
  | nil => rfl
  | cons g rest ih =>
    simp only [bucketsFrom, ih (j + 1)]

/-- With the flag observed set at every check, the bucket loop schedules
no bucket. -/
theorem bucketsFrom_all_true {δ : Type} [DecidableEq δ] (intr : InterruptObs)
    (hashFn : List Nat → δ) (fs : List FileEntry) (sample_size : Nat)
    (hall : ∀ i, intr i = true) (j : Nat) (gs : List (Nat × List String)) :
    bucketsFrom intr hashFn fs sample_size j gs = [] := by
  induction gs generalizing j with
  | nil => rfl
  | cons g rest ih =>
    simp only [bucketsFrom, hall j, if_true, List.nil_append]
    exact ih (j + 1)

/-- With a sticky flag, the bucket loop produces exactly what an
uninterrupted loop produces over the prefix of buckets scheduled before
the flag was first observed set. -/
theorem bucketsFrom_monotone_take {δ : Type} [DecidableEq δ]
    (intr : InterruptObs) (hashFn : List Nat → δ) (fs : List FileEntry)
    (sample_size : Nat)
    (hmono : ∀ i j, i ≤ j → intr i = true → intr j = true)
    (gs : List (Nat × List String)) :
    ∃ n, bucketsFrom intr hashFn fs sample_size 0 gs =
      bucketsFrom (fun _ => false) hashFn fs sample_size 0 (gs.take n) := by
  induction gs generalizing intr with
  | nil => exact ⟨0, rfl⟩
  | cons g rest ih =>
    cases h0 : intr 0 with
    | true =>
      refine ⟨0, ?_⟩
      rw [bucketsFrom_all_true intr hashFn fs sample_size
        (fun i => hmono 0 i (Nat.zero_le i) h0) 0]
      rfl
    | false =>
      have hmono' : ∀ i j, i ≤ j → intr (i + 1) = true → intr (j + 1) = true :=
        fun i j hij h => hmono (i + 1) (j + 1) (Nat.succ_le_succ hij) h
      obtain ⟨n, hn⟩ := ih (fun i => intr (i + 1)) hmono'
      refine ⟨n + 1, ?_⟩
      simp only [bucketsFrom, h0, List.take_succ_cons, Bool.false_eq_true,
        if_false]
      rw [bucketsFrom_shift intr hashFn fs sample_size 0 rest, hn]
      rw [bucketsFrom_false_irrel hashFn fs sample_size 0 (0 + 1) (rest.take n)]

/-- C1 amended: with a sticky interrupt flag, the size-partition and hash
stages never return an error — each returns, as a normal result, the
grouping accumulated over the prefix of work units whose interrupt check
ran before the flag was observed set — while the scan stage, contrary to
the original claim, returns the error "Scan interrupted by user" as soon
as its per-entry check observes the flag with an entry pending. -/
theorem C1_interrupt_partial_results {δ : Type} [DecidableEq δ]
    (intr : InterruptObs)
    (hmono : ∀ i j, i ≤ j → intr i = true → intr j = true)
    (files : List FileEntry) (hashFn : List Nat → δ) (fs : List FileEntry)
    (sample_size : Nat) (groups : List (Nat × List String))
    (follow_links : Bool) (min_size : Nat) (ev : Option FileEntry)
    (rest : List (Option FileEntry)) :
    (∃ n, group_by_size intr files = .ok (retainMultiple (buildMap
      (groupPairsFrom (fun _ => false) 0 (files.take n))))) ∧
    (∃ n, compute_hashes intr hashFn fs sample_size groups =
      .ok (retainMultiple (buildMap (bucketsFrom (fun _ => false) hashFn fs
        sample_size 0 ((groups.filter (fun g => 2 ≤ g.2.length)).take n))))) ∧
    (intr 0 = true →
      scan_loop intr follow_links min_size 0 (ev :: rest) [] =
        .error "Scan interrupted by user") := by
  refine ⟨?_, ?_, ?_⟩
  · obtain ⟨n, hn⟩ := groupPairsFrom_monotone_take intr hmono files
    exact ⟨n, by rw [group_by_size, hn]⟩
  · obtain ⟨n, hn⟩ := bucketsFrom_monotone_take intr hashFn fs sample_size
      hmono (groups.filter (fun g => 2 ≤ g.2.length))
    exact ⟨n, by rw [compute_hashes, hn]⟩
  · intro h0
    simp [scan_loop, h0]

/-- Witness for C1 (amended) with the flag set from the start: both later
stages return the empty accumulation as a normal result and the scan loop
errors. -/
theorem C1_interrupt_partial_results_witness :
    (∃ n, group_by_size (fun _ => true)
        [(⟨"a", true, false, [1, 2], true, true, true⟩ : FileEntry)] =
      .ok (retainMultiple (buildMap (groupPairsFrom (fun _ => false) 0
        ([(⟨"a", true, false, [1, 2], true, true, true⟩ : FileEntry)].take n))))) ∧
    (∃ n, compute_hashes (fun _ => true) (fun l => l)
        [(⟨"a", true, false, [1, 2], true, true, true⟩ : FileEntry)] 10
        [(2, ["a", "b"])] =
      .ok (retainMultiple (buildMap (bucketsFrom (fun _ => false) (fun l => l)
        [(⟨"a", true, false, [1, 2], true, true, true⟩ : FileEntry)] 10 0
        (([(2, (["a", "b"] : List String))].filter
          (fun g => 2 ≤ g.2.length)).take n))))) ∧
    ((fun (_ : Nat) => true) 0 = true →
      scan_loop (fun _ => true) false 0 0
        [some ⟨"a", true, false, [1, 2], true, true, true⟩] [] =
        .error "Scan interrupted by user") :=
  C1_interrupt_partial_results (fun _ => true) (fun _ _ _ h => h)
    [⟨"a", true, false, [1, 2], true, true, true⟩] (fun l => l)
    [⟨"a", true, false, [1, 2], true, true, true⟩] 10 [(2, ["a", "b"])]
    false 0 (some ⟨"a", true, false, [1, 2], true, true, true⟩) []

/-- `a.entry(k).or_default().extend(vs)`: the merge step of the parallel
reduce in `group_by_size` — append the whole list `vs` to the entry for
`k`, creating it if absent. -/
def extendAssoc {α β : Type} [DecidableEq α] (m : List (α × List β)) (k : α)
    (vs : List β) : List (α × List β) :=
  match m with
  | [] => [(k, vs)]
  | (k', vs') :: rest =>
    if k' = k then (k', vs' ++ vs) :: rest else (k', vs') :: extendAssoc rest k vs

/-- The `reduce` closure of `group_by_size`: fold every entry of `b` into
`a` with `extendAssoc`. -/
def mergeMaps {α β : Type} [DecidableEq α] (a b : List (α × List β)) :
    List (α × List β) :=
  b.foldl (fun acc q => extendAssoc acc q.1 q.2) a

/-- `group_by_size` as executed by a worker pool: the candidate files are
split into per-worker chunks, each worker folds its chunk into a local
size-keyed map, and the local maps are merged associatively; singleton
buckets are then dropped. -/
def group_by_size_par (css : List (List FileEntry)) :
    List (Nat × List String) :=
  retainMultiple ((css.map (fun cs =>
    buildMap (groupPairsFrom (fun _ => false) 0 cs))).foldl mergeMaps [])

/-- Concatenation of all value lists of `m` keyed `k`. -/
def flatCollect {α β : Type} [DecidableEq α] (m : List (α × List β)) (k : α) :
    List β :=
  (m.filter (fun q => q.1 = k)).flatMap (fun q => q.2)

theorem lookupD_extendAssoc {α β : Type} [DecidableEq α]
    (m : List (α × List β)) (k : α) (vs : List β) (k' : α) :
    lookupD (extendAssoc m k vs) k' =
      lookupD m k' ++ (if k' = k then vs else []) := by
  induction m with
  | nil =>
    by_cases h : k' = k
    · simp [extendAssoc, lookupD_cons, h, lookupD]
    · have h2 : ¬ (k = k') := fun hh => h hh.symm
      simp [extendAssoc, lookupD_cons, h, h2, lookupD]
  | cons q rest ih =>
    obtain ⟨k0, vs0⟩ := q
    by_cases h0 : k0 = k
    · subst h0
      by_cases h1 : k0 = k'
      · subst h1
        simp [extendAssoc, lookupD_cons]
      · have h2 : ¬ (k' = k0) := fun hh => h1 hh.symm
        simp [extendAssoc, lookupD_cons, h1, h2]
    · by_cases h1 : k0 = k'
      · subst h1
        have h2 : ¬ (k0 = k) := h0
        simp [extendAssoc, h2, lookupD_cons]
      · simp [extendAssoc, h0, lookupD_cons, h1, ih]

theorem lookupD_mergeMaps {α β : Type} [DecidableEq α]
    (a b : List (α × List β)) (k : α) :
    lookupD (mergeMaps a b) k = lookupD a k ++ flatCollect b k := by
  induction b generalizing a with
  | nil => simp [mergeMaps, flatCollect]
  | cons q rest ih =>
    obtain ⟨k0, vs0⟩ := q
    simp only [mergeMaps, List.foldl_cons] at ih ⊢
    rw [ih, lookupD_extendAssoc]
    by_cases h : k = k0
    · subst h
      simp [flatCollect, List.filter_cons, List.append_assoc]
    · have h2 : ¬ (k0 = k) := fun hh => h hh.symm
      simp [flatCollect, List.filter_cons, h, h2]

theorem lookupD_eq_nil_of_not_mem_keys {α β : Type} [DecidableEq α]
    (m : List (α × List β)) (k : α)
    (h : k ∉ m.map (fun q => q.1)) : lookupD m k = [] := by
  induction m with
  | nil => rfl
  | cons q rest ih =>
    obtain ⟨k0, vs⟩ := q
    simp only [List.map_cons, List.mem_cons] at h
    push_neg at h
    rw [lookupD_cons, if_neg (fun hh => h.1 hh.symm)]
    exact ih h.2

theorem flatCollect_eq_nil_of_not_mem_keys {α β : Type} [DecidableEq α]
    (m : List (α × List β)) (k : α)
    (h : k ∉ m.map (fun q => q.1)) : flatCollect m k = [] := by
  induction m with
  | nil => rfl
  | cons q rest ih =>
    obtain ⟨k0, vs⟩ := q
    simp only [List.map_cons, List.mem_cons] at h
    push_neg at h
    simp only [flatCollect, List.filter_cons] at ih ⊢
    rw [if_neg (by simpa using fun hh => h.1 hh.symm)]
    exact ih h.2

/-- On a map with distinct keys the two value extractions agree. -/
theorem flatCollect_eq_lookupD {α β : Type} [DecidableEq α]
    (m : List (α × List β)) (k : α)
    (hnd : (m.map (fun q => q.1)).Nodup) :
    flatCollect m k = lookupD m k := by
  induction m with
  | nil => rfl
  | cons q rest ih =>
    obtain ⟨k0, vs⟩ := q
    simp only [List.map_cons, List.nodup_cons] at hnd
    by_cases hk : k0 = k
    · subst hk
      have hr : flatCollect rest k0 = [] :=
        flatCollect_eq_nil_of_not_mem_keys rest k0 hnd.1
      simp [flatCollect, List.filter_cons, lookupD_cons] at hr ⊢
      exact hr
    · simp only [flatCollect, List.filter_cons] at ih ⊢
      rw [if_neg (by simpa using hk), lookupD_cons, if_neg hk]
      exact ih hnd.2

theorem lookupD_foldl_mergeMaps {α β : Type} [DecidableEq α]
    (ms : List (List (α × List β))) (a : List (α × List β)) (k : α) :
    lookupD (ms.foldl mergeMaps a) k =
      lookupD a k ++ ms.flatMap (fun m => flatCollect m k) := by
  induction ms generalizing a with
  | nil => simp
  | cons m rest ih =>
    simp only [List.foldl_cons, List.flatMap_cons]
    rw [ih, lookupD_mergeMaps, List.append_assoc]

theorem keys_extendAssoc {α β : Type} [DecidableEq α]
    (m : List (α × List β)) (k : α) (vs : List β) :
    (extendAssoc m k vs).map (fun q => q.1) = m.map (fun q => q.1) ∨
    (extendAssoc m k vs).map (fun q => q.1) = m.map (fun q => q.1) ++ [k] := by
  induction m with
  | nil => right; simp [extendAssoc]
  | cons q rest ih =>
    obtain ⟨k0, vs0⟩ := q
    by_cases h : k0 = k
    · left; simp [extendAssoc, h]
    · rcases ih with ih | ih
      · left; simp [extendAssoc, h, ih]
      · right; simp [extendAssoc, h, ih]

theorem nodupKeys_extendAssoc {α β : Type} [DecidableEq α]
    (m : List (α × List β)) (k : α) (vs : List β)
    (h : (m.map (fun q => q.1)).Nodup) :
    ((extendAssoc m k vs).map (fun q => q.1)).Nodup := by
  induction m with
  | nil => simp [extendAssoc]
  | cons q rest ih =>
    obtain ⟨k0, vs0⟩ := q
    simp only [List.map_cons, List.nodup_cons] at h
    by_cases hk : k0 = k
    · simp only [extendAssoc, if_pos hk, List.map_cons, List.nodup_cons]
      exact h
    · simp only [extendAssoc, if_neg hk, List.map_cons, List.nodup_cons]
      refine ⟨?_, ih h.2⟩
      intro hmem
      rcases keys_extendAssoc rest k vs with he | he
      · rw [he] at hmem; exact h.1 hmem
      · rw [he, List.mem_append] at hmem
        rcases hmem with hmem | hmem
        · exact h.1 hmem
        · simp only [List.mem_singleton] at hmem
          exact hk hmem

theorem nodupKeys_mergeMaps {α β : Type} [DecidableEq α]
    (a b : List (α × List β)) (h : (a.map (fun q => q.1)).Nodup) :
    ((mergeMaps a b).map (fun q => q.1)).Nodup := by
  induction b generalizing a with
  | nil => simpa [mergeMaps] using h
  | cons q rest ih =>
    simp only [mergeMaps, List.foldl_cons] at ih ⊢
    exact ih _ (nodupKeys_extendAssoc a q.1 q.2 h)

theorem nodupKeys_foldl_mergeMaps {α β : Type} [DecidableEq α]
    (ms : List (List (α × List β))) (a : List (α × List β))
    (h : (a.map (fun q => q.1)).Nodup) :
    ((ms.foldl mergeMaps a).map (fun q => q.1)).Nodup := by
  induction ms generalizing a with
  | nil => simpa using h
  | cons m rest ih =>
    simp only [List.foldl_cons]
    exact ih _ (nodupKeys_mergeMaps a m h)

/-- On a map with distinct keys, `retain(len > 1)` keeps a key's values
exactly when there are more than one of them. -/
theorem lookupD_retainMultiple {α β : Type} [DecidableEq α]
    (m : List (α × List β)) (hnd : (m.map (fun q => q.1)).Nodup) (k : α) :
    lookupD (retainMultiple m) k =
      if 1 < (lookupD m k).length then lookupD m k else [] := by
  induction m with
  | nil => simp [retainMultiple, lookupD]
  | cons q rest ih =>
    obtain ⟨k0, vs⟩ := q
    simp only [List.map_cons, List.nodup_cons] at hnd
    by_cases hk : k0 = k
    · subst hk
      have hretr : lookupD (retainMultiple rest) k0 = [] := by
        apply lookupD_eq_nil_of_not_mem_keys
        intro hmem
        apply hnd.1
        obtain ⟨q', hq', hfst⟩ := List.mem_map.mp hmem
        exact List.mem_map.mpr ⟨q', (List.mem_filter.mp hq').1, hfst⟩
      by_cases hlen : 1 < vs.length
      · simp only [retainMultiple, List.filter_cons] at hretr ⊢
        rw [if_pos (by simpa using hlen), lookupD_cons, if_pos rfl,
          lookupD_cons, if_pos rfl, if_pos hlen]
      · simp only [retainMultiple, List.filter_cons] at hretr ⊢
        rw [if_neg (by simpa using hlen), lookupD_cons, if_pos rfl,
          if_neg hlen]
        exact hretr
    · by_cases hlen : 1 < vs.length
      · simp only [retainMultiple, List.filter_cons] at ih ⊢
        rw [if_pos (by simpa using hlen), lookupD_cons, if_neg hk,
          lookupD_cons, if_neg hk]
        exact ih hnd.2
      · simp only [retainMultiple, List.filter_cons] at ih ⊢
        rw [if_neg (by simpa using hlen), lookupD_cons, if_neg hk]
        exact ih hnd.2

/-- An uninterrupted size-partition filter distributes over list
concatenation — the per-chunk emissions concatenate to the sequential
emission. -/
theorem groupPairsFrom_false_append (l1 l2 : List FileEntry) :
    groupPairsFrom (fun _ => false) 0 (l1 ++ l2) =
      groupPairsFrom (fun _ => false) 0 l1 ++
        groupPairsFrom (fun _ => false) 0 l2 := by
  induction l1 with
  | nil => rfl
  | cons f rest ih =>
    cases hm : f.metaOk with
    | false =>
      simp only [List.cons_append, groupPairsFrom, hm, Bool.false_eq_true,
        if_false, Bool.not_false, if_true]
      rw [show rest.append l2 = rest ++ l2 from rfl,
        groupPairsFrom_false_irrel (0 + 1) 0 (rest ++ l2),
        groupPairsFrom_false_irrel (0 + 1) 0 rest, ih]
    | true =>
      by_cases hz : f.content.length = 0
      · simp only [List.cons_append, groupPairsFrom, hm, Bool.false_eq_true,
          if_false, Bool.not_true, if_pos hz]
        rw [show rest.append l2 = rest ++ l2 from rfl,
          groupPairsFrom_false_irrel (0 + 1) 0 (rest ++ l2),
          groupPairsFrom_false_irrel (0 + 1) 0 rest, ih]
      · simp only [List.cons_append, groupPairsFrom, hm, Bool.false_eq_true,
          if_false, Bool.not_true, if_neg hz, List.cons_append]
        rw [show rest.append l2 = rest ++ l2 from rfl,
          groupPairsFrom_false_irrel (0 + 1) 0 (rest ++ l2),
          groupPairsFrom_false_irrel (0 + 1) 0 rest, ih]

theorem collectByKey_append {α β : Type} [DecidableEq α]
    (p1 p2 : List (α × β)) (k : α) :
    collectByKey (p1 ++ p2) k = collectByKey p1 k ++ collectByKey p2 k := by
  simp [collectByKey, List.filter_append]

/-- An uninterrupted bucket loop is the concatenation of the per-bucket
two-stage results, in bucket order. -/
theorem bucketsFrom_false_eq_flatMap {δ : Type} [DecidableEq δ]
    (hashFn : List Nat → δ) (fs : List FileEntry) (sample_size : Nat)
    (gs : List (Nat × List String)) :
    bucketsFrom (fun _ => false) hashFn fs sample_size 0 gs =
      gs.flatMap (fun g => bucketResults hashFn fs sample_size g.2) := by
  induction gs with
  | nil => rfl
  | cons g rest ih =>
    simp only [bucketsFrom, Bool.false_eq_true, if_false, List.flatMap_cons]
    rw [bucketsFrom_false_irrel hashFn fs sample_size (0 + 1) 0 rest, ih]

/-- The concatenated per-chunk emissions, collected per key, equal the
sequential emission collected per key. -/
theorem flatMap_collect_chunks (css : List (List FileEntry)) (k : Nat) :
    css.flatMap (fun cs =>
      collectByKey (groupPairsFrom (fun _ => false) 0 cs) k) =
    collectByKey (groupPairsFrom (fun _ => false) 0 css.flatten) k := by
  induction css with
  | nil => rfl
  | cons cs rest ih =>
    simp only [List.flatMap_cons, List.flatten_cons]
    rw [groupPairsFrom_false_append, collectByKey_append, ih]

/-- C8: the pipeline result is a deterministic function of its input,
independent of worker count and scheduling order. Splitting the files
into any chunking (one per worker) and merging the local size maps gives
the same size partition, key for key, as the sequential run; permuting
the bucket iteration order of the hash stage permutes each digest's
member list but never its membership. Hence two runs over unchanged
input have identical duplicate-group membership. -/
theorem C8_pipeline_deterministic {δ : Type} [DecidableEq δ]
    (hashFn : List Nat → δ) (fs : List FileEntry) (sample_size : Nat)
    (files : List FileEntry) (css : List (List FileEntry))
    (hjoin : css.flatten = files)
    (groups1 groups2 : List (Nat × List String))
    (hperm : groups1.Perm groups2)
    (gm : List (Nat × List String))
    (hg : group_by_size (fun _ => false) files = .ok gm)
    (hm1 hm2 : List (δ × List String))
    (h1 : compute_hashes (fun _ => false) hashFn fs sample_size groups1 = .ok hm1)
    (h2 : compute_hashes (fun _ => false) hashFn fs sample_size groups2 = .ok hm2) :
    (∀ k, lookupD (group_by_size_par css) k = lookupD gm k) ∧
    (∀ d, (lookupD hm1 d).Perm (lookupD hm2 d)) := by
  simp only [group_by_size, Except.ok.injEq] at hg
  simp only [compute_hashes, Except.ok.injEq] at h1 h2
  subst hg; subst h1; subst h2; subst hjoin
  constructor
  · intro k
    have hndM : ((((css.map (fun cs =>
        buildMap (groupPairsFrom (fun _ => false) 0 cs))).foldl mergeMaps
          [])).map (fun q => q.1)).Nodup :=
      nodupKeys_foldl_mergeMaps _ [] (by simp)
    rw [group_by_size_par, lookupD_retainMultiple _ hndM k,
      lookupD_retainMultiple _ (nodupKeys_buildMap _) k,
      lookupD_foldl_mergeMaps, lookupD_buildMap]
    have hchunks : (css.map (fun cs =>
        buildMap (groupPairsFrom (fun _ => false) 0 cs))).flatMap
          (fun m => flatCollect m k) =
        collectByKey (groupPairsFrom (fun _ => false) 0 css.flatten) k := by
      rw [← flatMap_collect_chunks css k]
      rw [List.flatMap_map]
      refine List.flatMap_congr ?_
      intro cs _
      rw [flatCollect_eq_lookupD _ k (nodupKeys_buildMap _), lookupD_buildMap]
    rw [hchunks]
    simp [lookupD]
  · intro d
    have hpermf : (groups1.filter (fun g => 2 ≤ g.2.length)).Perm
        (groups2.filter (fun g => 2 ≤ g.2.length)) := hperm.filter _
    have hres : (bucketsFrom (fun _ => false) hashFn fs sample_size 0
        (groups1.filter (fun g => 2 ≤ g.2.length))).Perm
        (bucketsFrom (fun _ => false) hashFn fs sample_size 0
          (groups2.filter (fun g => 2 ≤ g.2.length))) := by
      rw [bucketsFrom_false_eq_flatMap, bucketsFrom_false_eq_flatMap]
      exact hpermf.flatMap_right _
    have hcoll : (collectByKey (bucketsFrom (fun _ => false) hashFn fs
        sample_size 0 (groups1.filter (fun g => 2 ≤ g.2.length))) d).Perm
        (collectByKey (bucketsFrom (fun _ => false) hashFn fs sample_size 0
          (groups2.filter (fun g => 2 ≤ g.2.length))) d) :=
      (hres.filter _).map _
    rw [lookupD_retainMultiple _ (nodupKeys_buildMap _) d,
      lookupD_retainMultiple _ (nodupKeys_buildMap _) d,
      lookupD_buildMap, lookupD_buildMap]
    rw [hcoll.length_eq]
    by_cases hlen : 1 < (collectByKey (bucketsFrom (fun _ => false) hashFn fs
        sample_size 0 (groups2.filter (fun g => 2 ≤ g.2.length))) d).length
    · rw [if_pos hlen, if_pos hlen]
      exact hcoll
    · rw [if_neg hlen, if_neg hlen]

/-- Witness for C8: a two-chunk schedule of two files agrees with the
sequential partition, and two bucket orders give permutation-equal
digest groups. -/
theorem C8_pipeline_deterministic_witness :
    (∀ k, lookupD (group_by_size_par
        [[(⟨"a", true, false, [1, 2], true, true, true⟩ : FileEntry)],
         [⟨"b", true, false, [1, 2], true, true, true⟩]]) k =
      lookupD [(2, (["a", "b"] : List String))] k) ∧
    (∀ d, (lookupD [(([1, 2] : List Nat), (["a", "b"] : List String))] d).Perm
      (lookupD [(([1, 2] : List Nat), (["a", "b"] : List String))] d)) :=
  C8_pipeline_deterministic (fun l => l)
    [⟨"a", true, false, [1, 2], true, true, true⟩,
     ⟨"b", true, false, [1, 2], true, true, true⟩] 10
    [⟨"a", true, false, [1, 2], true, true, true⟩,
     ⟨"b", true, false, [1, 2], true, true, true⟩]
    [[⟨"a", true, false, [1, 2], true, true, true⟩],
     [⟨"b", true, false, [1, 2], true, true, true⟩]] rfl
    [(3, ["z"]), (2, ["a", "b"])] [(2, ["a", "b"]), (3, ["z"])]
    (List.Perm.swap _ _ _) [(2, ["a", "b"])] rfl
    [([1, 2], ["a", "b"])] [([1, 2], ["a", "b"])] rfl rfl
